import Mathlib

set_option maxHeartbeats 1600000

/-!
A shallow embedding of the pattern-matching core of `ibis/common/patterns.py`
and of the record copy/reconstruction protocol of `ibis/common/grounds.py`,
together with theorems about the behaviour of those operations.

Python values are modelled by the inductive type `Value`; the `NoMatch`
sentinel is modelled by `Option.none` in match results, so that a successful
match carries `some result` even when `result` is a falsy value such as `0`,
`None` or an empty list.  Python exceptions are modelled by the
`Except PyErr` monad.  The mutable match context, together with the
allocation counter used to give freshly constructed objects a reference
identity distinct from every live object, is threaded explicitly as `St`.
-/

namespace IbisPatterns

/-- Python-level classes appearing in the embedding.  User-defined
(`Annotable`-style) classes are identified by a numeric id. -/
inductive ClassId where
  | noneC
  | boolC
  | intC
  | strC
  | listC
  | tupleC
  | funcC
  | user (n : Nat)
deriving DecidableEq

/-- The `inspect.Parameter` kinds, as partitioned by `CallableWith.match`. -/
inductive ParamKind where
  | positionalOnly
  | positionalOrKeyword
  | varPositional
  | keywordOnly
  | varKeyword
deriving DecidableEq

/-- One parameter of a callable's signature: its kind and whether it has a
default value (a keyword-only parameter without a default is mandatory). -/
structure Param where
  kind : ParamKind
  hasDefault : Bool
deriving DecidableEq

/-- Python values.  Objects carry a reference identity `ref`, their class,
the class-level `__match_args__`/`__argnames__` tuple and their attribute
dict; callables carry a reference identity and their signature. -/
inductive Value where
  | pynone
  | pybool (b : Bool)
  | pyint (n : Int)
  | pystr (s : String)
  | pylist (xs : List Value)
  | pytuple (xs : List Value)
  | func (fid : Nat) (params : List Param)
  | obj (ref : Nat) (cls : Nat) (argnames : List String) (attrs : List (String × Value))

/-- Exception kinds.  `coercionError` models `ibis.common.patterns.CoercionError`
(the only error kind the coercion patterns catch), `matchError` models
`ibis.common.patterns.MatchError`; `other k` stands for an arbitrary further
exception kind raised by user code such as a `__coerce__` implementation. -/
inductive PyErr where
  | coercionError
  | matchError
  | attributeError
  | typeError
  | indexError
  | validationError
  | other (k : Nat)
deriving DecidableEq

/-- The runtime class of a value, as used by `type(value) is ...` checks. -/
def typeOf : Value → ClassId
  | .pynone => .noneC
  | .pybool _ => .boolC
  | .pyint _ => .intC
  | .pystr _ => .strC
  | .pylist _ => .listC
  | .pytuple _ => .tupleC
  | .func _ _ => .funcC
  | .obj _ c _ _ => .user c

/-- `isinstance(v, c)`.  The only non-trivial subclass relation among the
modelled classes is Python's `bool <: int`. -/
def isinst (v : Value) (c : ClassId) : Bool :=
  typeOf v == c || (c == .intC && typeOf v == .boolC)

/-- `iter(v)` as a list of the yielded elements; `none` when the value is not
iterable (in Python, `iter` raises `TypeError` there). -/
def Value.iterate : Value → Option (List Value)
  | .pylist xs => some xs
  | .pytuple xs => some xs
  | .pystr s => some (s.data.map (fun c => Value.pystr (String.mk [c])))
  | _ => none

/-- `len(v)`; raises `TypeError` for unsized values. -/
def pyLen : Value → Except PyErr Nat
  | .pylist xs => .ok xs.length
  | .pytuple xs => .ok xs.length
  | .pystr s => .ok s.length
  | _ => .error .typeError

/-- Modelled from the spec: `ibis.util.is_iterable` (an external collaborator
of `SequenceOf`/`TupleOf`, not part of the supplied sources) accepts any
iterable except strings and byte strings, so that `SequenceOf` "fails
immediately, non-error, if the input is not iterable". -/
def is_iterable (v : Value) : Bool :=
  v.iterate.isSome && !(typeOf v == .strC)

mutual

/-- Python `==` between the modelled values: numeric equality across
`bool`/`int`, structural equality for containers, `Annotable.__eq__`-style
comparison (same class, equal attribute values) for objects, and reference
identity for callables. -/
def pyEq : Value → Value → Bool
  | .pynone, .pynone => true
  | .pybool a, .pybool b => a == b
  | .pybool a, .pyint n => (if a then (1 : Int) else 0) == n
  | .pyint n, .pybool a => n == (if a then (1 : Int) else 0)
  | .pyint a, .pyint b => a == b
  | .pystr a, .pystr b => a == b
  | .pylist a, .pylist b => pyEqList a b
  | .pytuple a, .pytuple b => pyEqList a b
  | .func i _, .func j _ => i == j
  | .obj _ c _ a, .obj _ c2 _ a2 => c == c2 && pyEqAttrs a a2
  | _, _ => false

def pyEqList : List Value → List Value → Bool
  | [], [] => true
  | x :: xs, y :: ys => pyEq x y && pyEqList xs ys
  | _, _ => false

def pyEqAttrs : List (String × Value) → List (String × Value) → Bool
  | [], [] => true
  | (n, x) :: xs, (m, y) :: ys => n == m && pyEq x y && pyEqAttrs xs ys
  | _, _ => false

end

mutual

theorem pyEq_refl : ∀ v, pyEq v v = true
  | .pynone => rfl
  | .pybool b => by simp [pyEq]
  | .pyint n => by simp [pyEq]
  | .pystr s => by simp [pyEq]
  | .pylist xs => by simp [pyEq, pyEqList_refl xs]
  | .pytuple xs => by simp [pyEq, pyEqList_refl xs]
  | .func i p => by simp [pyEq]
  | .obj r c an a => by simp [pyEq, pyEqAttrs_refl a]

theorem pyEqList_refl : ∀ xs, pyEqList xs xs = true
  | [] => rfl
  | x :: xs => by simp [pyEqList, pyEq_refl x, pyEqList_refl xs]

theorem pyEqAttrs_refl : ∀ xs, pyEqAttrs xs xs = true
  | [] => rfl
  | (n, x) :: xs => by simp [pyEqAttrs, pyEq_refl x, pyEqAttrs_refl xs]

end

/-- The state threaded through a match: the mutable context dict shared by
reference across the whole match tree, and the allocation counter handing
out reference identities for freshly constructed objects. -/
structure St where
  ctx : List (String × Value)
  fresh : Nat

/-- First-occurrence lookup in an insertion-ordered dict. -/
def dictLookup {α : Type} : List (String × α) → String → Option α
  | [], _ => none
  | (n, v) :: rest, k => if n == k then some v else dictLookup rest k

/-- `d[k] = v` on an insertion-ordered dict: replace the (unique) existing
entry in place, else append. -/
def dictInsert {α : Type} : List (String × α) → String → α → List (String × α)
  | [], k, v => [(k, v)]
  | (n, x) :: rest, k, v =>
      if n == k then (k, v) :: rest else (n, x) :: dictInsert rest k v

/-- `d.update(items)` on an insertion-ordered dict. -/
def dictExtend {α : Type} (d : List (String × α)) (items : List (String × α)) :
    List (String × α) :=
  items.foldl (fun acc e => dictInsert acc e.1 e.2) d

/-- `dict(items)`: build a dict from pairs, later duplicates winning. -/
def dictOf {α : Type} (items : List (String × α)) : List (String × α) :=
  dictExtend [] items

/-- `{**a, **b}` / `a.update(b)`: entries of `b` override entries of `a`. -/
def dictMerge {α : Type} (a b : List (String × α)) : List (String × α) :=
  dictExtend a b

/-- `getattr(v, name)`: attribute lookup, raising `AttributeError` when the
attribute (or any attribute dict at all) is missing. -/
def getattr (v : Value) (name : String) : Except PyErr Value :=
  match v with
  | .obj _ _ _ attrs =>
      match dictLookup attrs name with
      | some x => .ok x
      | none => .error .attributeError
  | _ => .error .attributeError

/-- Total variant of `getattr` used only in specification statements. -/
def getattrD (v : Value) (name : String) : Value :=
  match getattr v name with
  | .ok x => x
  | .error _ => .pynone

/-- `v.__argnames__` (equally `v.__match_args__`: `AnnotableMeta` sets both
to the merged signature's parameter names): raises `AttributeError` on
values that are not record/node objects. -/
def getArgnames (v : Value) : Except PyErr (List String) :=
  match v with
  | .obj _ _ ns _ => .ok ns
  | _ => .error .attributeError

/-- `tuple(getattr(v, name) for name in names)` — the body of the
`Annotable.__args__` property. -/
def getArgsFrom (v : Value) : List String → Except PyErr (List Value)
  | [] => .ok []
  | n :: ns =>
      match getattr v n with
      | .error e => .error e
      | .ok x =>
          match getArgsFrom v ns with
          | .error e => .error e
          | .ok xs => .ok (x :: xs)

/-- `type(value)(**fields)` / `value.__class__(**newargs)`: invoking the
value's own constructor with keyword attributes.  Modelled as allocating a
fresh instance of the same class carrying the given attributes (signature
re-validation on construction belongs to the record protocol and is outside
the match-level rebuild). -/
def allocLike (v : Value) (fields : List (String × Value)) (s : St) :
    Except PyErr (Value × St) :=
  match v with
  | .obj _ c ns _ => .ok (.obj s.fresh c ns fields, { s with fresh := s.fresh + 1 })
  | _ => .error .typeError

instance : SizeOf (Value → Bool) := ⟨fun _ => 0⟩

instance : SizeOf (Value → Except PyErr Value) := ⟨fun _ => 0⟩

instance : SizeOf (Value → List (String × Value) → Except PyErr Value) := ⟨fun _ => 0⟩

/-- The coercion capability of a `Coercible` target type: its class (for the
`isinstance` check after coercion) and its `__coerce__` classmethod. -/
structure CoTarget where
  cls : ClassId
  coerce : Value → Except PyErr Value

/-- The coercion capability of a generic `Coercible` origin: `__coerce__`
taking the bound type parameters as keyword arguments. -/
structure GCoTarget where
  coerce : Value → List (String × Value) → Except PyErr Value

/-- The pattern algebra of `ibis/common/patterns.py` (the variants needed by
the claims; each `matchp` case below is translated from the corresponding
`match` method). -/
inductive Pattern where
  | always
  | never
  | anyP
  | equalTo (v : Value)
  | typeOfP (c : ClassId)
  | instanceOf (c : ClassId)
  | check (pred : Value → Bool)
  | apply (f : Value → Except PyErr Value)
  | lengthP (atLeast atMost : Option Nat)
  | capture (key : String) (p : Pattern)
  | notP (p : Pattern)
  | anyOf (ps : List Pattern)
  | allOf (ps : List Pattern)
  | coercedTo (t : CoTarget)
  | genericCoercedTo (origin : GCoTarget) (params : List (String × Value)) (checker : Pattern)
  | sequenceOf (item : Pattern) (typeP : Pattern) (lenP : Pattern)
  | object (t : Pattern) (args : List Pattern) (kwargs : List (String × Pattern))
  | node (t : Pattern) (eachArg : Pattern)
  | callableWith (args : List Pattern) (ret : Pattern)
  | patternSequence (window : List (Pattern × Pattern))

/-- `isinstance(current, Capture)` unwrapping in `PatternSequence.match`. -/
def stripCapture : Pattern → Pattern
  | .capture _ p => p
  | p => p

/-- `isinstance(current, (SequenceOf, PatternSequence))`: the wildcard test
in `PatternSequence.match`. -/
def isWildcardPat : Pattern → Bool
  | .sequenceOf _ _ _ => true
  | .patternSequence _ => true
  | _ => false

/-- The refinement of the lookahead pattern in `PatternSequence.match`:
`SequenceOf` contributes its item pattern, a nested `PatternSequence` its
first window pattern (`none` models the `IndexError` raised by
`pattern_window[0]` on an empty nested sequence), anything else is probed
as is. -/
def wildFollow : Pattern → Option Pattern
  | .sequenceOf item _ _ => some item
  | .patternSequence [] => none
  | .patternSequence ((c, _) :: _) => some c
  | p => some p

/-- Sum of the sizes of the patterns held in a pattern dict (a termination
measure; never evaluated). -/
noncomputable def patsSize : List (String × Pattern) → Nat
  | [] => 0
  | e :: rest => sizeOf e.2 + patsSize rest

/-- Sum of the sizes of a list of patterns (a termination measure; never
evaluated). -/
noncomputable def plistSize : List Pattern → Nat
  | [] => 0
  | p :: rest => sizeOf p + plistSize rest

theorem Pattern.one_le_sizeOf (p : Pattern) : 1 ≤ sizeOf p := by
  cases p <;> simp <;> omega

theorem sizeOf_stripCapture_le (p : Pattern) : sizeOf (stripCapture p) ≤ sizeOf p := by
  cases p <;> simp [stripCapture] <;> omega

theorem sizeOf_wildFollow_le {p q : Pattern} (h : wildFollow p = some q) :
    sizeOf q ≤ sizeOf p := by
  cases p
  case sequenceOf item tp lp =>
    simp [wildFollow] at h
    subst h
    simp
    omega
  case patternSequence w =>
    cases w with
    | nil => simp [wildFollow] at h
    | cons e rest =>
        obtain ⟨c, f⟩ := e
        simp [wildFollow] at h
        subst h
        simp
        omega
  all_goals
    simp [wildFollow] at h
  all_goals
    subst h
  all_goals
    exact Nat.le_refl _

theorem patsSize_dictInsert_le {d : List (String × Pattern)} {k : String}
    {p : Pattern} : patsSize (dictInsert d k p) ≤ patsSize d + sizeOf p := by
  induction d with
  | nil => simp [dictInsert, patsSize]
  | cons e rest ih =>
      obtain ⟨n, q⟩ := e
      simp only [dictInsert]
      by_cases h : (n == k) = true
      · simp [h, patsSize]; omega
      · simp [h, patsSize]; omega

theorem patsSize_dictExtend_le (items : List (String × Pattern)) :
    ∀ d, patsSize (dictExtend d items) ≤ patsSize d + patsSize items := by
  induction items with
  | nil => intro d; simp [dictExtend, patsSize]
  | cons e rest ih =>
      intro d
      simp only [dictExtend, List.foldl_cons]
      have h1 := ih (dictInsert d e.1 e.2)
      have h2 := patsSize_dictInsert_le (d := d) (k := e.1) (p := e.2)
      simp only [dictExtend] at h1
      simp [patsSize]
      omega

theorem patsSize_zip_le (names : List String) :
    ∀ args : List Pattern, patsSize (names.zip args) ≤ plistSize args := by
  induction names with
  | nil =>
      intro args
      exact Nat.zero_le _
  | cons n ns ih =>
      intro args
      cases args with
      | nil => exact Nat.zero_le _
      | cons a as =>
          have h := ih as
          show sizeOf a + patsSize (ns.zip as) ≤ sizeOf a + plistSize as
          omega

theorem plistSize_lt_sizeOf (l : List Pattern) : plistSize l < sizeOf l := by
  induction l with
  | nil => simp [plistSize]
  | cons p rest ih => simp [plistSize]; omega

theorem patsSize_lt_sizeOf (d : List (String × Pattern)) : patsSize d < sizeOf d := by
  induction d with
  | nil => simp [patsSize]
  | cons e rest ih =>
      obtain ⟨n, p⟩ := e
      simp [patsSize]
      omega

/-- `{**self.kwargs, **dict(zip(value.__match_args__, self.args))}` in
`Object.match`. -/
def objMerged (kwargs : List (String × Pattern)) (names : List String)
    (args : List Pattern) : List (String × Pattern) :=
  dictMerge kwargs (dictOf (names.zip args))

theorem patsSize_objMerged_le (kwargs : List (String × Pattern))
    (names : List String) (args : List Pattern) :
    patsSize (objMerged kwargs names args) ≤ patsSize kwargs + plistSize args := by
  have h1 := patsSize_dictExtend_le (dictOf (names.zip args)) kwargs
  have h2 := patsSize_dictExtend_le (names.zip args) ([] : List (String × Pattern))
  have h3 := patsSize_zip_le names args
  simp only [objMerged, dictMerge, dictOf] at *
  simp [patsSize] at h2
  omega

/-- Modelled from the spec: `ibis.common.annotations.annotated` (not part of
the supplied sources) wraps the callable with argument/return validation;
per the spec the resulting callable carries the same signature, which is all
`CallableWith.match` inspects, so the wrapper is modelled as the identity on
the callable. -/
def annotatedModel (args : List Pattern) (ret : Pattern) (f : Value) : Value :=
  f

mutual

/-- `Pattern.match(value, context)`: one case per `match` method of
`ibis/common/patterns.py`.  A result of `none` is the `NoMatch` sentinel,
`some r` is a successful match producing `r`; exceptions travel in
`Except`; the context/allocation state is threaded explicitly. -/
def Pattern.matchp : Pattern → Value → St → Except PyErr (Option Value × St)
  | .always, v, s => .ok (some v, s)
  | .never, _, s => .ok (none, s)
  | .anyP, v, s => .ok (some v, s)
  | .equalTo w, v, s =>
      if pyEq v w then .ok (some v, s) else .ok (none, s)
  | .typeOfP c, v, s =>
      if typeOf v == c then .ok (some v, s) else .ok (none, s)
  | .instanceOf c, v, s =>
      if isinst v c then .ok (some v, s) else .ok (none, s)
  | .check pred, v, s =>
      if pred v then .ok (some v, s) else .ok (none, s)
  | .apply f, v, s =>
      match f v with
      | .ok w => .ok (some w, s)
      | .error e => .error e
  | .lengthP lo hi, v, s =>
      match pyLen v with
      | .error e => .error e
      | .ok len =>
          if (match lo with | some a => decide (len < a) | none => false) then
            .ok (none, s)
          else if (match hi with | some b => decide (b < len) | none => false) then
            .ok (none, s)
          else .ok (some v, s)
  | .capture k p, v, s =>
      match Pattern.matchp p v s with
      | .error e => .error e
      | .ok (none, s1) => .ok (none, s1)
      | .ok (some w, s1) => .ok (some w, { s1 with ctx := dictInsert s1.ctx k w })
  | .notP p, v, s =>
      match Pattern.matchp p v s with
      | .error e => .error e
      | .ok (none, s1) => .ok (some v, s1)
      | .ok (some _, s1) => .ok (none, s1)
  | .anyOf ps, v, s => anyLoop ps v s
  | .allOf ps, v, s => allLoop ps v s
  | .coercedTo t, v, s =>
      match t.coerce v with
      | .error .coercionError => .ok (none, s)
      | .error e => .error e
      | .ok w => if isinst w t.cls then .ok (some w, s) else .ok (none, s)
  | .genericCoercedTo g params checker, v, s =>
      match g.coerce v params with
      | .error .coercionError => .ok (none, s)
      | .error e => .error e
      | .ok w =>
          match Pattern.matchp checker w s with
          | .error e => .error e
          | .ok (none, s1) => .ok (none, s1)
          | .ok (some _, s1) => .ok (some w, s1)
  | .sequenceOf item typeP lenP, v, s =>
      if is_iterable v then
        match v.iterate with
        | none => .ok (none, s)
        | some xs =>
            match seqLoop item xs s with
            | .error e => .error e
            | .ok (none, s1) => .ok (none, s1)
            | .ok (some rs, s1) =>
                match Pattern.matchp typeP (.pylist rs) s1 with
                | .error e => .error e
                | .ok (none, s2) => .ok (none, s2)
                | .ok (some r2, s2) => Pattern.matchp lenP r2 s2
      else .ok (none, s)
  | .object t args kwargs, v, s =>
      match Pattern.matchp t v s with
      | .error e => .error e
      | .ok (none, s0) => .ok (none, s0)
      | .ok (some _, s0) =>
          match getArgnames v with
          | .error e => .error e
          | .ok names =>
              match objLoop (objMerged kwargs names args) v s0 with
              | .error e => .error e
              | .ok (none, s1) => .ok (none, s1)
              | .ok (some (fields, changed), s1) =>
                  if changed then
                    match allocLike v fields s1 with
                    | .error e => .error e
                    | .ok (w, s2) => .ok (some w, s2)
                  else .ok (some v, s1)
  | .node t ea, v, s =>
      match Pattern.matchp t v s with
      | .error e => .error e
      | .ok (none, s0) => .ok (none, s0)
      | .ok (some _, s0) =>
          match getArgnames v with
          | .error e => .error e
          | .ok names =>
              match getArgsFrom v names with
              | .error e => .error e
              | .ok args =>
                  match nodeLoop ea (names.zip args) s0 with
                  | .error e => .error e
                  | .ok ((newargs, changed), s1) =>
                      if changed then
                        match allocLike v newargs s1 with
                        | .error e => .error e
                        | .ok (w, s2) => .ok (some w, s2)
                      else .ok (some v, s1)
  | .callableWith argPats ret, v, s =>
      match v with
      | .func fid params =>
          let fn := annotatedModel argPats ret (Value.func fid params)
          let positional := params.filter
            (fun p => p.kind == .positionalOnly || p.kind == .positionalOrKeyword)
          let keywordOnly := params.filter (fun p => p.kind == .keywordOnly)
          let hasVarargs := params.any (fun p => p.kind == .varPositional)
          if keywordOnly.isEmpty then
            if argPats.length < positional.length then .ok (none, s)
            else if positional.length < argPats.length && !hasVarargs then .ok (none, s)
            else .ok (some fn, s)
          else .error .matchError
      | _ => .ok (none, s)
  | .patternSequence window, v, s =>
      match v.iterate with
      | none => .error .typeError
      | some items =>
          match window with
          | [] =>
              if items.isEmpty then .ok (some (.pylist []), s) else .ok (none, s)
          | w1 :: wrest =>
              match windowLoop (w1 :: wrest) items [] s with
              | .error e => .error e
              | .ok (none, s1) => .ok (none, s1)
              | .ok (some acc, s1) => .ok (some (.pylist acc), s1)

termination_by p v s => (2 * sizeOf p, 0)
decreasing_by
  all_goals simp_wf
  all_goals apply Prod.Lex.left
  all_goals try simp
  all_goals try omega
  all_goals
    (have h1 := patsSize_objMerged_le kwargs names args
     have h2 := patsSize_lt_sizeOf kwargs
     have h3 := plistSize_lt_sizeOf args
     omega)

/-- The loop of `AnyOf.match`: first succeeding branch wins. -/
def anyLoop : List Pattern → Value → St → Except PyErr (Option Value × St)
  | [], _, s => .ok (none, s)
  | p :: ps, v, s =>
      match Pattern.matchp p v s with
      | .error e => .error e
      | .ok (some r, s1) => .ok (some r, s1)
      | .ok (none, s1) => anyLoop ps v s1

termination_by ps v s => (2 * sizeOf ps, 0)
decreasing_by
  all_goals simp_wf
  all_goals apply Prod.Lex.left
  all_goals try simp
  all_goals omega

/-- The loop of `AllOf.match`: each stage consumes the previous stage's
output. -/
def allLoop : List Pattern → Value → St → Except PyErr (Option Value × St)
  | [], v, s => .ok (some v, s)
  | p :: ps, v, s =>
      match Pattern.matchp p v s with
      | .error e => .error e
      | .ok (none, s1) => .ok (none, s1)
      | .ok (some v1, s1) => allLoop ps v1 s1

termination_by ps v s => (2 * sizeOf ps, 0)
decreasing_by
  all_goals simp_wf
  all_goals apply Prod.Lex.left
  all_goals try simp
  all_goals omega

/-- The element loop of `SequenceOf.match`. -/
def seqLoop : Pattern → List Value → St → Except PyErr (Option (List Value) × St)
  | _, [], s => .ok (some [], s)
  | item, x :: xs, s =>
      match Pattern.matchp item x s with
      | .error e => .error e
      | .ok (none, s1) => .ok (none, s1)
      | .ok (some r, s1) =>
          match seqLoop item xs s1 with
          | .error e => .error e
          | .ok (none, s2) => .ok (none, s2)
          | .ok (some rs, s2) => .ok (some (r :: rs), s2)

termination_by item xs s => (2 * sizeOf item + 1, xs.length)
decreasing_by
  all_goals simp_wf
  all_goals
    first
    | (apply Prod.Lex.right
       omega)
    | (apply Prod.Lex.left
       omega)

/-- The attribute loop of `Object.match`: `getattr` failure is a non-match,
a pattern failure is a non-match, and a matched result that differs from
the original attribute by `!=` records the result and flags a change; an
equal result stores the original attribute.  The merged pattern dict has
unique keys, so `fields[name] = ...` is modelled as an in-order cons. -/
def objLoop : List (String × Pattern) → Value → St →
    Except PyErr (Option (List (String × Value) × Bool) × St)
  | [], _, s => .ok (some ([], false), s)
  | (name, p) :: rest, v, s =>
      match getattr v name with
      | .error _ => .ok (none, s)
      | .ok attr =>
          match Pattern.matchp p attr s with
          | .error e => .error e
          | .ok (none, s1) => .ok (none, s1)
          | .ok (some res, s1) =>
              match objLoop rest v s1 with
              | .error e => .error e
              | .ok (none, s2) => .ok (none, s2)
              | .ok (some (fs, ch), s2) =>
                  if pyEq res attr then .ok (some ((name, attr) :: fs, ch), s2)
                  else .ok (some ((name, res) :: fs, true), s2)

termination_by entries v s => (2 * patsSize entries + 1, entries.length)
decreasing_by
  all_goals simp_wf
  all_goals apply Prod.Lex.left
  all_goals try simp [patsSize]
  all_goals
    (have h1 := Pattern.one_le_sizeOf p
     omega)

/-- The argument loop of `Node.match`: a child on which `each_arg` fails is
silently kept at its original value; a successful child match stores the
result and flags a change even when the result equals the original. -/
def nodeLoop : Pattern → List (String × Value) → St →
    Except PyErr ((List (String × Value) × Bool) × St)
  | _, [], s => .ok (([], false), s)
  | ea, (name, arg) :: rest, s =>
      match Pattern.matchp ea arg s with
      | .error e => .error e
      | .ok (none, s1) =>
          match nodeLoop ea rest s1 with
          | .error e => .error e
          | .ok ((xs, ch), s2) => .ok (((name, arg) :: xs, ch), s2)
      | .ok (some res, s1) =>
          match nodeLoop ea rest s1 with
          | .error e => .error e
          | .ok ((xs, _), s2) => .ok (((name, res) :: xs, true), s2)

termination_by ea pairs s => (2 * sizeOf ea + 1, pairs.length)
decreasing_by
  all_goals simp_wf
  all_goals
    first
    | (apply Prod.Lex.right
       omega)
    | (apply Prod.Lex.left
       omega)

/-- The window loop of `PatternSequence.match`: a wildcard slot greedily
consumes elements until the lookahead pattern accepts the next element
(rewinding by one), then matches the accumulated run as a whole; any other
slot consumes exactly one element. -/
def windowLoop : List (Pattern × Pattern) → List Value → List Value → St →
    Except PyErr (Option (List Value) × St)
  | [], _, acc, s => .ok (some acc, s)
  | (cur, fol) :: rest, items, acc, s =>
      if isWildcardPat (stripCapture cur) then
        match h : wildFollow (stripCapture fol) with
        | none => .error .indexError
        | some fnext =>
            match greedyLoop fnext items [] s with
            | .error e => .error e
            | .ok (run, remaining, s1) =>
                match Pattern.matchp cur (.pylist run) s1 with
                | .error e => .error e
                | .ok (none, s2) => .ok (none, s2)
                | .ok (some r, s2) =>
                    match r.iterate with
                    | none => .error .typeError
                    | some elems => windowLoop rest remaining (acc ++ elems) s2
      else
        match items with
        | [] => .ok (none, s)
        | item :: restItems =>
            match Pattern.matchp cur item s with
            | .error e => .error e
            | .ok (none, s1) => .ok (none, s1)
            | .ok (some r, s1) => windowLoop rest restItems (acc ++ [r]) s1

termination_by w items acc s => (2 * sizeOf w, items.length)
decreasing_by
  all_goals simp_wf
  all_goals apply Prod.Lex.left
  all_goals try simp
  all_goals try omega
  all_goals
    (have h1 := sizeOf_stripCapture_le fol
     have h2 := sizeOf_wildFollow_le h
     omega)

/-- The greedy wildcard loop of `PatternSequence.match`: probe each element
with the lookahead pattern; as long as it fails, the element joins the
wildcard's run; on the first success the cursor is rewound by one and the
run ends (context mutations made by failed probes are kept, mirroring the
shared mutable context). -/
def greedyLoop : Pattern → List Value → List Value → St →
    Except PyErr (List Value × List Value × St)
  | _, [], acc, s => .ok (acc, [], s)
  | f, item :: rest, acc, s =>
      match Pattern.matchp f item s with
      | .error e => .error e
      | .ok (none, s1) => greedyLoop f rest (acc ++ [item]) s1
      | .ok (some _, s1) => .ok (acc, item :: rest, s1)
termination_by f items acc s => (2 * sizeOf f + 1, items.length)
decreasing_by
  all_goals simp_wf
  all_goals
    first
    | (apply Prod.Lex.right
       omega)
    | (apply Prod.Lex.left
       omega)

end

/-- `Pattern.is_match(value, context)`: `self.match(value, context) is not
NoMatch` (the boolean wrapper discards the returned value but shares the
same context/state and propagates exceptions). -/
def Pattern.is_match (p : Pattern) (v : Value) (s : St) : Except PyErr Bool :=
  (Pattern.matchp p v s).map (fun rs => rs.1.isSome)

/-- The module-level `match(pat, value, context)` function: it runs the
pattern's `match` method and returns `NoMatch` when the result is
reference-identical to `NoMatch`, else the result unchanged (the input is
already a `Pattern`, so the `pattern(pat)` conversion is the identity). -/
def matchFn (p : Pattern) (v : Value) (s : St) : Except PyErr (Option Value × St) :=
  match Pattern.matchp p v s with
  | .error e => .error e
  | .ok (none, s1) => .ok (none, s1)
  | .ok (some r, s1) => .ok (some r, s1)

/-- `PatternSequence.__init__`: pair every pattern with its successor,
appending the synthetic `Not(_any)` ("never matches anything") sentinel as
the lookahead of the last slot.  (The `Ellipsis`-to-`SequenceOf(_any)`
sugar of the Python constructor applies to raw inputs; the inputs here are
already patterns.) -/
def mkPatternSequence (pats : List Pattern) : Pattern :=
  .patternSequence (pats.zip (pats.drop 1 ++ [.notP .anyP]))

/-- `Concrete.__args__` / the `Annotable.__args__` property:
`tuple(getattr(self, name) for name in self.__argnames__)`. -/
def Concrete.args (v : Value) : Except PyErr (List Value) :=
  match getArgnames v with
  | .error e => .error e
  | .ok names => getArgsFrom v names

/-- Modelled from the spec: the per-field loop of
`Signature.validate_nobind` (which lives in `ibis.common.annotations`, not
in the supplied sources).  Per the spec, reconstruction "skips positional
binding and validates a keyword-only mapping directly": every declared
field must be supplied and is validated by its pattern (each field with a
fresh empty context but a shared allocation counter is folded into the
threaded state); a pattern failure raises a validation error. -/
def validateFields : List (String × Pattern) → List (String × Value) → St →
    Except PyErr (List (String × Value) × St)
  | [], _, s => .ok ([], s)
  | (n, p) :: rest, kwargs, s =>
      match dictLookup kwargs n with
      | none => .error .validationError
      | some v =>
          match Pattern.matchp p v s with
          | .error e => .error e
          | .ok (none, _) => .error .validationError
          | .ok (some w, s1) =>
              match validateFields rest kwargs s1 with
              | .error e => .error e
              | .ok (fs, s2) => .ok ((n, w) :: fs, s2)

/-- Modelled from the spec: `Signature.validate_nobind` (external to the
supplied sources) rejects keyword arguments that name no declared field,
then validates each declared field. -/
def validate_nobind (sig : List (String × Pattern)) (kwargs : List (String × Value))
    (s : St) : Except PyErr (List (String × Value) × St) :=
  if kwargs.any (fun kv => !(sig.any (fun sp => sp.1 == kv.1))) then
    .error .validationError
  else validateFields sig kwargs s

/-- `Annotable.__recreate__(kwargs)`: validate the keyword-only mapping
through the signature, then construct the instance from the validated
keyword arguments (`super().__create__(**kwargs)` is modelled as allocating
a fresh instance of the class carrying those attributes). -/
def Annotable.recreate (cid : Nat) (sig : List (String × Pattern))
    (kwargs : List (String × Value)) (s : St) : Except PyErr (Value × St) :=
  match validate_nobind sig kwargs s with
  | .error e => .error e
  | .ok (fields, s1) =>
      .ok (.obj s1.fresh cid (sig.map Prod.fst) fields, { s1 with fresh := s1.fresh + 1 })

/-- `Concrete.copy(**overrides)`:
`kwargs = dict(zip(self.__argnames__, self.__args__)); kwargs.update(overrides);
return self.__recreate__(kwargs)`.  The original instance is never written
to (values are immutable in the embedding, mirroring `Concrete`'s
immutability). -/
def Concrete.copy (cid : Nat) (sig : List (String × Pattern)) (r : Value)
    (overrides : List (String × Value)) (s : St) : Except PyErr (Value × St) :=
  match getArgnames r with
  | .error e => .error e
  | .ok names =>
      match getArgsFrom r names with
      | .error e => .error e
      | .ok args =>
          Annotable.recreate cid sig (dictMerge (dictOf (names.zip args)) overrides) s

/-- C1: for every pattern `p`, value `v` and context `c`, `is_match(p, v, c)`
returns `true` exactly when `match(p, v, c)` returns a result that is not
reference-identical to the `NoMatch` sentinel (and both raise the same
exception when the underlying match raises); in particular falsy results
such as `0`, `None` or an empty list count as success, as the three closed
conjuncts record. -/
theorem is_match_iff_not_nomatch :
    (∀ (p : Pattern) (v : Value) (s : St),
        Pattern.is_match p v s = (matchFn p v s).map (fun rs => rs.1.isSome))
    ∧ Pattern.is_match .always (.pyint 0) ⟨[], 0⟩ = .ok true
    ∧ Pattern.is_match .always .pynone ⟨[], 0⟩ = .ok true
    ∧ Pattern.is_match .always (.pylist []) ⟨[], 0⟩ = .ok true := by
  refine ⟨?_, ?_, ?_, ?_⟩
  · intro p v s
    simp only [Pattern.is_match, matchFn]
    cases h : Pattern.matchp p v s with
    | error e => simp
    | ok rs =>
        obtain ⟨r, s1⟩ := rs
        cases r <;> simp
  · simp [Pattern.is_match, Pattern.matchp, Except.map]
  · simp [Pattern.is_match, Pattern.matchp, Except.map]
  · simp [Pattern.is_match, Pattern.matchp, Except.map]

/-- C10: the empty combinators are the units of the pattern algebra: for
every value `v` and context, `AllOf()` matches and returns `v` unchanged,
while `AnyOf()` returns `NoMatch`. -/
theorem empty_combinator_units :
    ∀ (v : Value) (s : St),
      Pattern.matchp (.allOf []) v s = .ok (some v, s)
      ∧ Pattern.matchp (.anyOf []) v s = .ok (none, s) := by
  intro v s
  constructor
  · simp [Pattern.matchp, allLoop]
  · simp [Pattern.matchp, anyLoop]

/-- C4: `AllOf(p1, p2).match(v, ctx)` equals `p2.match(p1.match(v, ctx),
ctx)` when `p1` succeeds (each stage consumes the previous stage's output
and the context state threaded through it), and equals `NoMatch` without
evaluating `p2` when `p1` fails (the result does not depend on `p2`). -/
theorem allof_threads_and_shortcircuits :
    ∀ (p1 p2 : Pattern) (v : Value) (s : St),
      (∀ (v1 : Value) (s1 : St), Pattern.matchp p1 v s = .ok (some v1, s1) →
          Pattern.matchp (.allOf [p1, p2]) v s = Pattern.matchp p2 v1 s1)
      ∧ (∀ s1 : St, Pattern.matchp p1 v s = .ok (none, s1) →
          Pattern.matchp (.allOf [p1, p2]) v s = .ok (none, s1)) := by
  intro p1 p2 v s
  constructor
  · intro v1 s1 h
    simp only [Pattern.matchp, allLoop, h]
    cases h2 : Pattern.matchp p2 v1 s1 with
    | error e => simp [allLoop]
    | ok rs =>
        obtain ⟨r, s2⟩ := rs
        cases r <;> simp [allLoop]
  · intro s1 h
    simp only [Pattern.matchp, allLoop, h]

/-- C5: `AnyOf(p1, p2).match(v, ctx)` returns `p1`'s result whenever `p1`
succeeds, without evaluating `p2` (the result does not depend on `p2`);
it returns `p2`'s result (on the original value, with the context state
left by `p1`) exactly when `p1` fails; and it returns `NoMatch` when all
branches fail. -/
theorem anyof_first_success :
    ∀ (p1 p2 : Pattern) (v : Value) (s : St),
      (∀ (r : Value) (s1 : St), Pattern.matchp p1 v s = .ok (some r, s1) →
          Pattern.matchp (.anyOf [p1, p2]) v s = .ok (some r, s1))
      ∧ (∀ s1 : St, Pattern.matchp p1 v s = .ok (none, s1) →
          Pattern.matchp (.anyOf [p1, p2]) v s = Pattern.matchp p2 v s1)
      ∧ (∀ (s1 s2 : St), Pattern.matchp p1 v s = .ok (none, s1) →
          Pattern.matchp p2 v s1 = .ok (none, s2) →
          Pattern.matchp (.anyOf [p1, p2]) v s = .ok (none, s2)) := by
  intro p1 p2 v s
  refine ⟨?_, ?_, ?_⟩
  · intro r s1 h
    simp only [Pattern.matchp, anyLoop, h]
  · intro s1 h
    simp only [Pattern.matchp, anyLoop, h]
    cases h2 : Pattern.matchp p2 v s1 with
    | error e => simp [anyLoop]
    | ok rs =>
        obtain ⟨r, s2⟩ := rs
        cases r <;> simp [anyLoop]
  · intro s1 s2 h h2
    simp only [Pattern.matchp, anyLoop, h, h2]

/-- C2: for every coercion target, `CoercedTo(T).match` returns `NoMatch`
when `T.__coerce__` raises the dedicated `CoercionError`, and any other
exception kind raised by `__coerce__` propagates out of `match` uncaught;
the same holds for `GenericCoercedTo`. -/
theorem coercedto_error_channels :
    (∀ (t : CoTarget) (v : Value) (s : St),
        t.coerce v = .error .coercionError →
        Pattern.matchp (.coercedTo t) v s = .ok (none, s))
    ∧ (∀ (t : CoTarget) (v : Value) (s : St) (e : PyErr),
        t.coerce v = .error e → e ≠ .coercionError →
        Pattern.matchp (.coercedTo t) v s = .error e)
    ∧ (∀ (g : GCoTarget) (params : List (String × Value)) (checker : Pattern)
        (v : Value) (s : St),
        g.coerce v params = .error .coercionError →
        Pattern.matchp (.genericCoercedTo g params checker) v s = .ok (none, s))
    ∧ (∀ (g : GCoTarget) (params : List (String × Value)) (checker : Pattern)
        (v : Value) (s : St) (e : PyErr),
        g.coerce v params = .error e → e ≠ .coercionError →
        Pattern.matchp (.genericCoercedTo g params checker) v s = .error e) := by
  refine ⟨?_, ?_, ?_, ?_⟩
  · intro t v s h
    simp [Pattern.matchp, h]
  · intro t v s e h hne
    cases e
    case coercionError => exact absurd rfl hne
    all_goals simp [Pattern.matchp, h]
  · intro g params checker v s h
    simp [Pattern.matchp, h]
  · intro g params checker v s e h hne
    cases e
    case coercionError => exact absurd rfl hne
    all_goals simp [Pattern.matchp, h]

/-- Witness for C2 at concrete coercion targets: a `__coerce__` raising
`CoercionError` yields `NoMatch`, one raising another error kind
propagates it. -/
theorem coercedto_error_channels_witness :
    Pattern.matchp (.coercedTo ⟨.user 0, fun _ => .error .coercionError⟩)
        (.pyint 1) ⟨[], 0⟩ = .ok (none, ⟨[], 0⟩)
    ∧ Pattern.matchp (.coercedTo ⟨.user 0, fun _ => .error (.other 7)⟩)
        (.pyint 1) ⟨[], 0⟩ = .error (.other 7)
    ∧ Pattern.matchp (.genericCoercedTo ⟨fun _ _ => .error .coercionError⟩ [] .anyP)
        (.pyint 1) ⟨[], 0⟩ = .ok (none, ⟨[], 0⟩)
    ∧ Pattern.matchp (.genericCoercedTo ⟨fun _ _ => .error (.other 9)⟩ [] .anyP)
        (.pyint 1) ⟨[], 0⟩ = .error (.other 9) := by
  refine ⟨?_, ?_, ?_, ?_⟩
  · exact coercedto_error_channels.1 _ _ _ rfl
  · exact coercedto_error_channels.2.1 _ _ _ _ rfl (by decide)
  · exact coercedto_error_channels.2.2.1 _ _ _ _ _ rfl
  · exact coercedto_error_channels.2.2.2 _ _ _ _ _ _ rfl (by decide)

/-- Witness for C4 at concrete inputs: when the first stage succeeds the
pair equals the second stage run on the first stage's output, and when the
first stage fails the pair yields `NoMatch` without consulting the second
stage. -/
theorem allof_threads_witness :
    Pattern.matchp (.allOf [.always, .never]) (.pyint 1) ⟨[], 0⟩
      = Pattern.matchp .never (.pyint 1) ⟨[], 0⟩
    ∧ Pattern.matchp (.allOf [.never, .always]) (.pyint 1) ⟨[], 0⟩
      = .ok (none, ⟨[], 0⟩) := by
  constructor
  · exact (allof_threads_and_shortcircuits .always .never (.pyint 1) ⟨[], 0⟩).1
      (.pyint 1) ⟨[], 0⟩ (by simp [Pattern.matchp])
  · exact (allof_threads_and_shortcircuits .never .always (.pyint 1) ⟨[], 0⟩).2
      ⟨[], 0⟩ (by simp [Pattern.matchp])

/-- Witness for C5 at concrete inputs: a succeeding first branch wins, a
failing first branch defers to the second, and two failing branches yield
`NoMatch`. -/
theorem anyof_first_success_witness :
    Pattern.matchp (.anyOf [.always, .never]) (.pyint 1) ⟨[], 0⟩
      = .ok (some (.pyint 1), ⟨[], 0⟩)
    ∧ Pattern.matchp (.anyOf [.never, .always]) (.pyint 1) ⟨[], 0⟩
      = Pattern.matchp .always (.pyint 1) ⟨[], 0⟩
    ∧ Pattern.matchp (.anyOf [.never, .never]) (.pyint 1) ⟨[], 0⟩
      = .ok (none, ⟨[], 0⟩) := by
  refine ⟨?_, ?_, ?_⟩
  · exact (anyof_first_success .always .never (.pyint 1) ⟨[], 0⟩).1
      (.pyint 1) ⟨[], 0⟩ (by simp [Pattern.matchp])
  · exact (anyof_first_success .never .always (.pyint 1) ⟨[], 0⟩).2.1
      ⟨[], 0⟩ (by simp [Pattern.matchp])
  · exact (anyof_first_success .never .never (.pyint 1) ⟨[], 0⟩).2.2
      ⟨[], 0⟩ ⟨[], 0⟩ (by simp [Pattern.matchp]) (by simp [Pattern.matchp])

/-- C7: a `PatternSequence` built from an empty list of patterns matches an
iterable input exactly when it yields no elements (succeeding with an empty
result list), and returns `NoMatch` on any non-empty input. -/
theorem empty_pattern_sequence_spec :
    ∀ (v : Value) (xs : List Value) (s : St),
      v.iterate = some xs →
      ((Pattern.matchp (mkPatternSequence []) v s = .ok (some (.pylist []), s)) ↔ xs = [])
      ∧ (xs ≠ [] → Pattern.matchp (mkPatternSequence []) v s = .ok (none, s)) := by
  intro v xs s h
  have hm : mkPatternSequence [] = .patternSequence [] := rfl
  rw [hm]
  constructor
  · constructor
    · intro hmatch
      cases xs with
      | nil => rfl
      | cons a as => simp [Pattern.matchp, h] at hmatch
    · intro hxs
      subst hxs
      simp [Pattern.matchp, h]
  · intro hne
    cases xs with
    | nil => exact absurd rfl hne
    | cons a as => simp [Pattern.matchp, h]

/-- Witness for C7 at concrete inputs: the empty pattern sequence accepts
the empty list (returning an empty result list) and rejects a one-element
list. -/
theorem empty_pattern_sequence_witness :
    Pattern.matchp (mkPatternSequence []) (.pylist []) ⟨[], 0⟩
      = .ok (some (.pylist []), ⟨[], 0⟩)
    ∧ Pattern.matchp (mkPatternSequence []) (.pylist [.pyint 1]) ⟨[], 0⟩
      = .ok (none, ⟨[], 0⟩) := by
  constructor
  · exact ((empty_pattern_sequence_spec (.pylist []) [] ⟨[], 0⟩ rfl).1).2 rfl
  · exact (empty_pattern_sequence_spec (.pylist [.pyint 1]) [.pyint 1] ⟨[], 0⟩ rfl).2
      (by simp)


/-- C9: for every `Node` pattern whose type pattern succeeds on `v`,
`Node.match` never returns `NoMatch`, whatever the per-argument pattern
does: a child argument on which `each_arg` fails is silently kept at its
original value rather than failing the whole match. -/
theorem node_match_never_nomatch :
    ∀ (t ea : Pattern) (v : Value) (s : St) (w : Value) (s0 : St)
      (r : Option Value) (s2 : St),
      Pattern.matchp t v s = .ok (some w, s0) →
      Pattern.matchp (.node t ea) v s = .ok (r, s2) →
      r ≠ none := by
  intro t ea v s w s0 r s2 ht hm
  simp only [Pattern.matchp, ht] at hm
  cases hn : getArgnames v with
  | error e => simp [hn] at hm
  | ok names =>
      simp only [hn] at hm
      cases ha : getArgsFrom v names with
      | error e => simp [ha] at hm
      | ok args =>
          simp only [ha] at hm
          cases hl : nodeLoop ea (names.zip args) s0 with
          | error e => simp [hl] at hm
          | ok rs =>
              obtain ⟨⟨newargs, changed⟩, s1⟩ := rs
              simp only [hl] at hm
              cases changed with
              | false =>
                  simp at hm
                  obtain ⟨hr, -⟩ := hm
                  subst hr
                  simp
              | true =>
                  simp only [if_true] at hm
                  cases hal : allocLike v newargs s1 with
                  | error e => simp [hal] at hm
                  | ok ws =>
                      obtain ⟨w1, s3⟩ := ws
                      simp only [hal] at hm
                      simp at hm
                      obtain ⟨hr, -⟩ := hm
                      subst hr
                      simp

/-- Witness for C9: on a concrete node whose every child fails the
`each_arg` pattern, the match still succeeds (keeping the original
reference). -/
theorem node_match_never_nomatch_witness :
    Pattern.matchp (.node .anyP .never) (.obj 0 0 (["a"]) [(("a"), .pyint 1)]) ⟨[], 1⟩
      = .ok (some (.obj 0 0 (["a"]) [(("a"), .pyint 1)]), ⟨[], 1⟩)
    ∧ (some (.obj 0 0 (["a"]) [(("a"), .pyint 1)]) : Option Value) ≠ none := by
  constructor
  · simp [Pattern.matchp, nodeLoop, getArgnames, getArgsFrom, getattr, dictLookup]
  · exact node_match_never_nomatch .anyP .never
      (.obj 0 0 (["a"]) [(("a"), .pyint 1)]) ⟨[], 1⟩
      (.obj 0 0 (["a"]) [(("a"), .pyint 1)]) ⟨[], 1⟩
      (some (.obj 0 0 (["a"]) [(("a"), .pyint 1)])) ⟨[], 1⟩
      (by simp [Pattern.matchp])
      (by simp [Pattern.matchp, nodeLoop, getArgnames, getArgsFrom, getattr, dictLookup])


/-- C6: for every `CallableWith` pattern and callable candidate: a candidate
declaring a mandatory keyword-only parameter makes `match` raise the
`MatchError` usage error rather than return `NoMatch`; a candidate without
keyword-only parameters whose positional parameter count cannot accept the
expected arity exactly or via a variadic parameter yields `NoMatch` (a
non-match, not an error). -/
theorem callable_with_error_channels :
    (∀ (argPats : List Pattern) (ret : Pattern) (fid : Nat) (params : List Param)
       (s : St),
        (∃ p ∈ params, p.kind = ParamKind.keywordOnly ∧ p.hasDefault = false) →
        Pattern.matchp (.callableWith argPats ret) (.func fid params) s
          = .error .matchError)
    ∧ (∀ (argPats : List Pattern) (ret : Pattern) (fid : Nat) (params : List Param)
       (s : St),
        (∀ p ∈ params, p.kind ≠ ParamKind.keywordOnly) →
        (argPats.length < (params.filter
            (fun p => p.kind == .positionalOnly || p.kind == .positionalOrKeyword)).length
          ∨ ((params.filter
                (fun p => p.kind == .positionalOnly || p.kind == .positionalOrKeyword)).length
                < argPats.length
              ∧ (∀ p ∈ params, p.kind ≠ ParamKind.varPositional))) →
        Pattern.matchp (.callableWith argPats ret) (.func fid params) s
          = .ok (none, s)) := by
  constructor
  · intro argPats ret fid params s hex
    obtain ⟨p, hp, hkind, hdef⟩ := hex
    have hmem : p ∈ params.filter (fun q => q.kind == ParamKind.keywordOnly) := by
      rw [List.mem_filter]
      exact ⟨hp, by simp [hkind]⟩
    have hk : (params.filter (fun q => q.kind == ParamKind.keywordOnly)).isEmpty = false := by
      rw [List.isEmpty_eq_false]
      exact List.ne_nil_of_mem hmem
    simp only [Pattern.matchp]
    simp [hk]
  · intro argPats ret fid params s hnokw hdisj
    have hkw : (params.filter (fun q => q.kind == ParamKind.keywordOnly)).isEmpty = true := by
      rw [List.isEmpty_iff, List.filter_eq_nil]
      intro p hp
      simp [hnokw p hp]
    rcases hdisj with hlt | ⟨hgt, hnova⟩
    · simp only [Pattern.matchp]
      simp [hkw, hlt]
    · have hva : (params.any (fun q => q.kind == ParamKind.varPositional)) = false := by
        rw [List.any_eq_false]
        intro p hp
        simp [hnova p hp]
      have h1 : ¬ (argPats.length < (params.filter
          (fun p => p.kind == .positionalOnly || p.kind == .positionalOrKeyword)).length) := by
        omega
      simp only [Pattern.matchp]
      simp [hkw, hva, h1, hgt]

/-- Witness for C6 at concrete callables: one mandatory keyword-only
parameter raises `MatchError`; two positional parameters against one
expected argument (and no variadic parameter) yield `NoMatch`. -/
theorem callable_with_error_channels_witness :
    Pattern.matchp (.callableWith [.anyP] .anyP)
        (.func 0 [⟨ParamKind.keywordOnly, false⟩]) ⟨[], 0⟩ = .error .matchError
    ∧ Pattern.matchp (.callableWith [.anyP] .anyP)
        (.func 0 [⟨ParamKind.positionalOrKeyword, false⟩, ⟨ParamKind.positionalOrKeyword, false⟩])
        ⟨[], 0⟩ = .ok (none, ⟨[], 0⟩) := by
  constructor
  · exact callable_with_error_channels.1 [.anyP] .anyP 0
      [⟨ParamKind.keywordOnly, false⟩] ⟨[], 0⟩
      ⟨⟨ParamKind.keywordOnly, false⟩, by simp, rfl, rfl⟩
  · exact callable_with_error_channels.2 [.anyP] .anyP 0
      [⟨ParamKind.positionalOrKeyword, false⟩, ⟨ParamKind.positionalOrKeyword, false⟩] ⟨[], 0⟩
      (by intro p hp; fin_cases hp <;> simp)
      (Or.inl (by simp [List.filter]))


/-- Counterexample to C3 as stated: `Node(Any, Any)` matched against a
concrete node object succeeds with every child's matched result
value-equal to the original (here the sole child `1` is returned
unchanged, `1 == 1`), yet a newly constructed object with a fresh
reference identity is returned instead of the original reference —
`Node.match` flags a change whenever `each_arg` merely succeeds. -/
theorem object_node_identity_counterexample :
    Pattern.matchp (.node .anyP .anyP) (.obj 0 0 (["a"]) [(("a"), .pyint 1)]) ⟨[], 1⟩
      = .ok (some (.obj 1 0 (["a"]) [(("a"), .pyint 1)]), ⟨[], 2⟩)
    ∧ pyEq (.pyint 1) (.pyint 1) = true
    ∧ (Value.obj 1 0 (["a"]) [(("a"), .pyint 1)]) ≠ (Value.obj 0 0 (["a"]) [(("a"), .pyint 1)]) := by
  refine ⟨?_, by decide, by simp⟩
  simp [Pattern.matchp, nodeLoop, getArgnames, getArgsFrom, getattr, dictLookup,
        allocLike, pyEq]

theorem getattrD_of_getattr {v : Value} {n : String} {a : Value}
    (h : getattr v n = .ok a) : getattrD v n = a := by
  simp [getattrD, h]

/-- The changed flag computed by the attribute loop of `Object.match` is
set exactly when some stored field differs from the original attribute by
value-equality. -/
theorem objLoop_changed :
    ∀ (entries : List (String × Pattern)) (v : Value) (s : St)
      (fields : List (String × Value)) (changed : Bool) (s1 : St),
      objLoop entries v s = .ok (some (fields, changed), s1) →
      changed = fields.any (fun kv => !(pyEq kv.2 (getattrD v kv.1))) := by
  intro entries
  induction entries with
  | nil =>
      intro v s fields changed s1 h
      simp [objLoop] at h
      obtain ⟨⟨hf, hc⟩, hs⟩ := h
      subst hf
      subst hc
      simp
  | cons e rest ih =>
      obtain ⟨name, p⟩ := e
      intro v s fields changed s1 h
      simp only [objLoop] at h
      cases hg : getattr v name with
      | error e2 => simp [hg] at h
      | ok attr =>
          simp only [hg] at h
          cases hmp : Pattern.matchp p attr s with
          | error e2 => simp [hmp] at h
          | ok rs =>
              obtain ⟨ropt, s2⟩ := rs
              simp only [hmp] at h
              cases ropt with
              | none => simp at h
              | some res =>
                  cases hrest : objLoop rest v s2 with
                  | error e2 => simp [hrest] at h
                  | ok rr =>
                      obtain ⟨fopt, s3⟩ := rr
                      simp only [hrest] at h
                      cases fopt with
                      | none => simp at h
                      | some pr =>
                          obtain ⟨fs, ch⟩ := pr
                          have hch := ih v s2 fs ch s3 hrest
                          by_cases hpe : pyEq res attr = true
                          · simp [hpe] at h
                            obtain ⟨⟨hf, hc⟩, hs⟩ := h
                            subst hf
                            subst hc
                            rw [List.any_cons]
                            rw [getattrD_of_getattr hg]
                            simp [pyEq_refl]
                            exact hch
                          · simp [hpe] at h
                            obtain ⟨⟨hf, hc⟩, hs⟩ := h
                            subst hf
                            subst hc
                            rw [List.any_cons]
                            rw [getattrD_of_getattr hg]
                            simp [hpe]


/-- Running the argument loop of `Node.match` over a concatenation first
runs the prefix, then the suffix from the prefix's final state, appending
the rebuilt arguments and or-ing the changed flags. -/
theorem nodeLoop_append :
    ∀ (ea : Pattern) (xs ys : List (String × Value)) (s : St)
      (xa : List (String × Value)) (xc : Bool) (s1 : St),
      nodeLoop ea xs s = .ok ((xa, xc), s1) →
      nodeLoop ea (xs ++ ys) s =
        (match nodeLoop ea ys s1 with
         | .error e => .error e
         | .ok ((ya, yc), s2) => .ok ((xa ++ ya, xc || yc), s2)) := by
  intro ea xs
  induction xs with
  | nil =>
      intro ys s xa xc s1 h
      simp [nodeLoop] at h
      obtain ⟨⟨hxa, hxc⟩, hs⟩ := h
      subst hxa
      subst hxc
      subst hs
      simp only [List.nil_append]
      cases hy : nodeLoop ea ys s with
      | error e => simp
      | ok rr =>
          obtain ⟨⟨ya, yc⟩, s2⟩ := rr
          simp
  | cons e xs2 ih =>
      obtain ⟨name, arg⟩ := e
      intro ys s xa xc s1 h
      simp only [nodeLoop] at h
      cases hm : Pattern.matchp ea arg s with
      | error e2 => simp [hm] at h
      | ok rs =>
          obtain ⟨ropt, sA⟩ := rs
          simp only [hm] at h
          cases ropt with
          | none =>
              cases hrest : nodeLoop ea xs2 sA with
              | error e2 => simp [hrest] at h
              | ok rr =>
                  obtain ⟨⟨ra, rc⟩, sB⟩ := rr
                  simp only [hrest] at h
                  simp at h
                  obtain ⟨⟨hxa, hxc⟩, hs⟩ := h
                  subst hxa
                  subst hxc
                  subst hs
                  have hx := ih ys sA ra rc sB hrest
                  simp only [List.cons_append, nodeLoop, hm, hx]
                  cases hy : nodeLoop ea ys sB with
                  | error e2 => simp
                  | ok yy =>
                      obtain ⟨⟨ya, yc⟩, s2⟩ := yy
                      simp
          | some res =>
              cases hrest : nodeLoop ea xs2 sA with
              | error e2 => simp [hrest] at h
              | ok rr =>
                  obtain ⟨⟨ra, rc⟩, sB⟩ := rr
                  simp only [hrest] at h
                  simp at h
                  obtain ⟨⟨hxa, hxc⟩, hs⟩ := h
                  subst hxa
                  subst hxc
                  subst hs
                  have hx := ih ys sA ra rc sB hrest
                  simp only [List.cons_append, nodeLoop, hm, hx]
                  cases hy : nodeLoop ea ys sB with
                  | error e2 => simp
                  | ok yy =>
                      obtain ⟨⟨ya, yc⟩, s2⟩ := yy
                      simp

/-- The changed flag computed by the argument loop of `Node.match` is set
exactly when the `each_arg` pattern succeeds on some child argument (at the
context state reached when that child is processed) — regardless of whether
the matched result differs from the original. -/
theorem nodeLoop_changed_iff :
    ∀ (ea : Pattern) (pairs : List (String × Value)) (s : St)
      (na : List (String × Value)) (ch : Bool) (s1 : St),
      nodeLoop ea pairs s = .ok ((na, ch), s1) →
      (ch = true ↔ ∃ (pre : List (String × Value)) (n : String) (a : Value)
          (rest : List (String × Value)) (acc : List (String × Value)) (cpre : Bool)
          (sMid : St) (res : Value) (sAfter : St),
          pairs = pre ++ (n, a) :: rest
          ∧ nodeLoop ea pre s = .ok ((acc, cpre), sMid)
          ∧ Pattern.matchp ea a sMid = .ok (some res, sAfter)) := by
  intro ea pairs
  induction pairs with
  | nil =>
      intro s na ch s1 h
      simp [nodeLoop] at h
      obtain ⟨⟨hna, hch⟩, hs⟩ := h
      subst hch
      constructor
      · intro hfalse
        exact absurd hfalse (by simp)
      · rintro ⟨pre, n, a, rest, acc, cpre, sMid, res, sAfter, hdec, -, -⟩
        exact absurd hdec (by simp)
  | cons e pairs2 ih =>
      obtain ⟨name, arg⟩ := e
      intro s na ch s1 h
      simp only [nodeLoop] at h
      cases hm : Pattern.matchp ea arg s with
      | error e2 => simp [hm] at h
      | ok rs =>
          obtain ⟨ropt, sA⟩ := rs
          simp only [hm] at h
          cases ropt with
          | none =>
              cases hrest : nodeLoop ea pairs2 sA with
              | error e2 => simp [hrest] at h
              | ok rr =>
                  obtain ⟨⟨ra, rc⟩, sB⟩ := rr
                  simp only [hrest] at h
                  simp at h
                  obtain ⟨⟨hna, hch⟩, hs⟩ := h
                  subst hch
                  have hIH := ih sA ra rc sB hrest
                  constructor
                  · intro hc
                    obtain ⟨pre, n, a, rest, acc, cpre, sMid, res, sAfter, hdec, hpre, hmid⟩ :=
                      hIH.mp hc
                    refine ⟨(name, arg) :: pre, n, a, rest, (name, arg) :: acc, cpre,
                      sMid, res, sAfter, by rw [hdec]; rfl, ?_, hmid⟩
                    simp only [nodeLoop, hm, hpre]
                  · rintro ⟨pre, n, a, rest, acc, cpre, sMid, res, sAfter, hdec, hpre, hmid⟩
                    cases pre with
                    | nil =>
                        simp at hdec
                        obtain ⟨⟨hn, ha⟩, hrest2⟩ := hdec
                        subst hn
                        subst ha
                        simp [nodeLoop] at hpre
                        obtain ⟨-, hsm⟩ := hpre
                        subst hsm
                        rw [hm] at hmid
                        simp at hmid
                    | cons q pre2 =>
                        simp at hdec
                        obtain ⟨hq, hrest2⟩ := hdec
                        subst hq
                        simp only [nodeLoop, hm] at hpre
                        cases hpre2 : nodeLoop ea pre2 sA with
                        | error e2 => rw [hpre2] at hpre; simp at hpre
                        | ok pp =>
                            obtain ⟨⟨pa, pc⟩, sC⟩ := pp
                            rw [hpre2] at hpre
                            simp at hpre
                            obtain ⟨⟨hacc, hcpre⟩, hsm⟩ := hpre
                            subst hsm
                            apply hIH.mpr
                            exact ⟨pre2, n, a, rest, pa, pc, _, res, sAfter,
                              hrest2, hpre2, hmid⟩
          | some res0 =>
              cases hrest : nodeLoop ea pairs2 sA with
              | error e2 => simp [hrest] at h
              | ok rr =>
                  obtain ⟨⟨ra, rc⟩, sB⟩ := rr
                  simp only [hrest] at h
                  simp at h
                  obtain ⟨⟨hna, hch⟩, hs⟩ := h
                  subst hch
                  constructor
                  · intro _
                    exact ⟨[], name, arg, pairs2, [], false, s, res0, sA, rfl,
                      by simp [nodeLoop], hm⟩
                  · intro _
                    rfl


/-- C3 (amended): on a successful `Object` match the original reference is
returned exactly when no attribute's matched result differs from the
original by value-equality (the changed flag equals that test), and
otherwise a new object is constructed via the value's own constructor with
the updated attributes; on a successful `Node` match, however, the original
reference is returned exactly when the `each_arg` pattern matched no child
argument — any successful child match, even one whose result is value-equal
to the original, flags a change and a new object is constructed. -/
theorem object_node_rebuild_amended :
    (∀ (t : Pattern) (args : List Pattern) (kwargs : List (String × Pattern))
       (v : Value) (s : St) (r : Value) (s2 : St),
       Pattern.matchp (.object t args kwargs) v s = .ok (some r, s2) →
       ∃ (w : Value) (s0 : St) (names : List String)
         (fields : List (String × Value)) (changed : Bool) (s1 : St),
         Pattern.matchp t v s = .ok (some w, s0)
         ∧ getArgnames v = .ok names
         ∧ objLoop (objMerged kwargs names args) v s0 = .ok (some (fields, changed), s1)
         ∧ changed = fields.any (fun kv => !(pyEq kv.2 (getattrD v kv.1)))
         ∧ (changed = false → r = v ∧ s2 = s1)
         ∧ (changed = true → allocLike v fields s1 = .ok (r, s2)))
    ∧ (∀ (t ea : Pattern) (v : Value) (s : St) (r : Value) (s2 : St),
       Pattern.matchp (.node t ea) v s = .ok (some r, s2) →
       ∃ (w : Value) (s0 : St) (names : List String) (args : List Value)
         (newargs : List (String × Value)) (changed : Bool) (s1 : St),
         Pattern.matchp t v s = .ok (some w, s0)
         ∧ getArgnames v = .ok names
         ∧ getArgsFrom v names = .ok args
         ∧ nodeLoop ea (names.zip args) s0 = .ok ((newargs, changed), s1)
         ∧ (changed = false → r = v ∧ s2 = s1)
         ∧ (changed = true → allocLike v newargs s1 = .ok (r, s2)))
    ∧ (∀ (ea : Pattern) (pairs : List (String × Value)) (s : St)
         (na : List (String × Value)) (ch : Bool) (s1 : St),
       nodeLoop ea pairs s = .ok ((na, ch), s1) →
       (ch = true ↔ ∃ (pre : List (String × Value)) (n : String) (a : Value)
          (rest : List (String × Value)) (acc : List (String × Value)) (cpre : Bool)
          (sMid : St) (res : Value) (sAfter : St),
          pairs = pre ++ (n, a) :: rest
          ∧ nodeLoop ea pre s = .ok ((acc, cpre), sMid)
          ∧ Pattern.matchp ea a sMid = .ok (some res, sAfter))) := by
  refine ⟨?_, ?_, nodeLoop_changed_iff⟩
  · intro t args kwargs v s r s2 hm
    simp only [Pattern.matchp] at hm
    cases hT : Pattern.matchp t v s with
    | error e => simp [hT] at hm
    | ok rs =>
        obtain ⟨wopt, s0⟩ := rs
        simp only [hT] at hm
        cases wopt with
        | none => simp at hm
        | some w =>
            cases hn : getArgnames v with
            | error e => simp [hn] at hm
            | ok names =>
                simp only [hn] at hm
                cases hl : objLoop (objMerged kwargs names args) v s0 with
                | error e => simp [hl] at hm
                | ok rr =>
                    obtain ⟨fopt, s1⟩ := rr
                    simp only [hl] at hm
                    cases fopt with
                    | none => simp at hm
                    | some pr =>
                        obtain ⟨fields, changed⟩ := pr
                        refine ⟨w, s0, names, fields, changed, s1, rfl, rfl, hl,
                          objLoop_changed _ v s0 fields changed s1 hl, ?_, ?_⟩
                        · intro hc
                          subst hc
                          simp at hm
                          obtain ⟨hr, hs⟩ := hm
                          subst hr
                          subst hs
                          exact ⟨rfl, rfl⟩
                        · intro hc
                          subst hc
                          simp only [if_true] at hm
                          cases hal : allocLike v fields s1 with
                          | error e => simp [hal] at hm
                          | ok ws =>
                              obtain ⟨w1, s3⟩ := ws
                              simp only [hal] at hm
                              simp at hm
                              obtain ⟨hr, hs⟩ := hm
                              subst hr
                              subst hs
                              rfl
  · intro t ea v s r s2 hm
    simp only [Pattern.matchp] at hm
    cases hT : Pattern.matchp t v s with
    | error e => simp [hT] at hm
    | ok rs =>
        obtain ⟨wopt, s0⟩ := rs
        simp only [hT] at hm
        cases wopt with
        | none => simp at hm
        | some w =>
            cases hn : getArgnames v with
            | error e => simp [hn] at hm
            | ok names =>
                simp only [hn] at hm
                cases ha : getArgsFrom v names with
                | error e => simp [ha] at hm
                | ok args =>
                    simp only [ha] at hm
                    cases hl : nodeLoop ea (names.zip args) s0 with
                    | error e => simp [hl] at hm
                    | ok rr =>
                        obtain ⟨⟨newargs, changed⟩, s1⟩ := rr
                        simp only [hl] at hm
                        refine ⟨w, s0, names, args, newargs, changed, s1,
                          rfl, rfl, ha, hl, ?_, ?_⟩
                        · intro hc
                          subst hc
                          simp at hm
                          obtain ⟨hr, hs⟩ := hm
                          subst hr
                          subst hs
                          exact ⟨rfl, rfl⟩
                        · intro hc
                          subst hc
                          simp only [if_true] at hm
                          cases hal : allocLike v newargs s1 with
                          | error e => simp [hal] at hm
                          | ok ws =>
                              obtain ⟨w1, s3⟩ := ws
                              simp only [hal] at hm
                              simp at hm
                              obtain ⟨hr, hs⟩ := hm
                              subst hr
                              subst hs
                              rfl


/-- Witness for the amended C3: the conclusion instantiated at a concrete
`Object` match (one attribute, result value-equal, original reference
returned) and at a concrete `Node` match (the rebuild case of the
counterexample). -/
theorem object_node_rebuild_amended_witness :
    (∃ (w : Value) (s0 : St) (names : List String)
       (fields : List (String × Value)) (changed : Bool) (s1 : St),
       Pattern.matchp (.instanceOf (.user 0)) (.obj 0 0 (["a"]) [(("a"), .pyint 1)]) ⟨[], 1⟩
         = .ok (some w, s0)
       ∧ getArgnames (.obj 0 0 (["a"]) [(("a"), .pyint 1)]) = .ok names
       ∧ objLoop (objMerged [(("a"), .anyP)] names []) (.obj 0 0 (["a"]) [(("a"), .pyint 1)]) s0
         = .ok (some (fields, changed), s1)
       ∧ changed = fields.any
           (fun kv => !(pyEq kv.2 (getattrD (.obj 0 0 (["a"]) [(("a"), .pyint 1)]) kv.1)))
       ∧ (changed = false →
           (Value.obj 0 0 (["a"]) [(("a"), .pyint 1)]) = (Value.obj 0 0 (["a"]) [(("a"), .pyint 1)])
           ∧ (⟨[], 1⟩ : St) = s1)
       ∧ (changed = true →
           allocLike (.obj 0 0 (["a"]) [(("a"), .pyint 1)]) fields s1
             = .ok (.obj 0 0 (["a"]) [(("a"), .pyint 1)], ⟨[], 1⟩)))
    ∧ (∃ (w : Value) (s0 : St) (names : List String) (args : List Value)
        (newargs : List (String × Value)) (changed : Bool) (s1 : St),
        Pattern.matchp .anyP (.obj 0 0 (["a"]) [(("a"), .pyint 1)]) ⟨[], 1⟩ = .ok (some w, s0)
        ∧ getArgnames (.obj 0 0 (["a"]) [(("a"), .pyint 1)]) = .ok names
        ∧ getArgsFrom (.obj 0 0 (["a"]) [(("a"), .pyint 1)]) names = .ok args
        ∧ nodeLoop .anyP (names.zip args) s0 = .ok ((newargs, changed), s1)
        ∧ (changed = false →
            (Value.obj 1 0 (["a"]) [(("a"), .pyint 1)]) = (Value.obj 0 0 (["a"]) [(("a"), .pyint 1)])
            ∧ (⟨[], 2⟩ : St) = s1)
        ∧ (changed = true →
            allocLike (.obj 0 0 (["a"]) [(("a"), .pyint 1)]) newargs s1
              = .ok (.obj 1 0 (["a"]) [(("a"), .pyint 1)], ⟨[], 2⟩))) := by
  constructor
  · exact object_node_rebuild_amended.1 (.instanceOf (.user 0)) [] [(("a"), .anyP)]
      (.obj 0 0 (["a"]) [(("a"), .pyint 1)]) ⟨[], 1⟩
      (.obj 0 0 (["a"]) [(("a"), .pyint 1)]) ⟨[], 1⟩
      (by simp [Pattern.matchp, objLoop, objMerged, dictMerge, dictExtend, dictOf,
                getArgnames, getattr, dictLookup, allocLike, pyEq, isinst, typeOf])
  · exact object_node_rebuild_amended.2.1 .anyP .anyP
      (.obj 0 0 (["a"]) [(("a"), .pyint 1)]) ⟨[], 1⟩
      (.obj 1 0 (["a"]) [(("a"), .pyint 1)]) ⟨[], 2⟩
      (by simp [Pattern.matchp, nodeLoop, getArgnames, getArgsFrom, getattr,
                dictLookup, allocLike, pyEq])


/-- Total first-occurrence lookup, used in specification statements. -/
def dictLookupD (d : List (String × Value)) (k : String) : Value :=
  (dictLookup d k).getD .pynone

theorem dictLookup_dictInsert {α : Type} :
    ∀ (a : List (String × α)) (k0 : String) (v0 : α) (k : String),
      dictLookup (dictInsert a k0 v0) k
        = if (k0 == k) then some v0 else dictLookup a k := by
  intro a
  induction a with
  | nil =>
      intro k0 v0 k
      simp [dictInsert, dictLookup]
  | cons e rest ih =>
      obtain ⟨n, x⟩ := e
      intro k0 v0 k
      by_cases h0 : (n == k0) = true
      · have hn : n = k0 := by simpa using h0
        subst hn
        simp only [dictInsert, h0, if_true]
        by_cases h1 : (n == k) = true
        · have : n = k := by simpa using h1
          subst this
          simp [dictLookup]
        · simp [dictLookup, h1]
      · simp only [dictInsert, h0, if_false]
        by_cases h1 : (n == k) = true
        · have hn : n = k := by simpa using h1
          subst hn
          have hk0 : (k0 == n) = false := by
            rw [beq_eq_false_iff_ne]
            intro hEq
            subst hEq
            simp at h0
          simp [dictLookup, h1, hk0]
        · simp [dictLookup, h1, ih]

theorem dictLookup_mem_keys {α : Type} :
    ∀ (d : List (String × α)) (k : String) (v : α),
      dictLookup d k = some v → k ∈ d.map Prod.fst := by
  intro d
  induction d with
  | nil => intro k v h; simp [dictLookup] at h
  | cons e rest ih =>
      obtain ⟨n, x⟩ := e
      intro k v h
      simp only [dictLookup] at h
      by_cases h1 : (n == k) = true
      · have : n = k := by simpa using h1
        subst this
        simp
      · rw [if_neg (by simp_all)] at h
        simp only [List.map_cons, List.mem_cons]
        exact Or.inr (ih k v h)

theorem dictLookup_isSome_of_mem {α : Type} :
    ∀ (d : List (String × α)) (k : String),
      k ∈ d.map Prod.fst → ∃ v, dictLookup d k = some v := by
  intro d
  induction d with
  | nil => intro k h; simp at h
  | cons e rest ih =>
      obtain ⟨n, x⟩ := e
      intro k h
      by_cases h1 : (n == k) = true
      · exact ⟨x, by simp [dictLookup, h1]⟩
      · simp only [List.map_cons, List.mem_cons] at h
        cases h with
        | inl hEq =>
            subst hEq
            simp at h1
        | inr hmem =>
            obtain ⟨v, hv⟩ := ih k hmem
            exact ⟨v, by simp [dictLookup, h1, hv]⟩

theorem dictLookup_dictExtend {α : Type} :
    ∀ (b a : List (String × α)) (k : String),
      (b.map Prod.fst).Nodup →
      dictLookup (dictExtend a b) k
        = (match dictLookup b k with
           | some v => some v
           | none => dictLookup a k) := by
  intro b
  induction b with
  | nil =>
      intro a k hnd
      simp [dictExtend, dictLookup]
  | cons e rest ih =>
      obtain ⟨n, x⟩ := e
      intro a k hnd
      simp only [List.map_cons, List.nodup_cons] at hnd
      obtain ⟨hnin, hnd2⟩ := hnd
      have hstep : dictExtend a ((n, x) :: rest) = dictExtend (dictInsert a n x) rest := by
        simp [dictExtend]
      rw [hstep, ih (dictInsert a n x) k hnd2]
      cases hr : dictLookup rest k with
      | some v =>
          have hk : k ∈ rest.map Prod.fst := dictLookup_mem_keys rest k v hr
          have hne : (n == k) = false := by
            rw [beq_eq_false_iff_ne]
            intro hEq
            subst hEq
            exact hnin hk
          simp [dictLookup, hne, hr]
      | none =>
          by_cases h1 : (n == k) = true
          · simp [dictLookup, h1, dictLookup_dictInsert]
          · simp only [dictLookup]
            rw [if_neg (by simp_all)]
            rw [dictLookup_dictInsert]
            rw [if_neg (by simp_all)]
            rw [hr]

theorem mem_keys_dictInsert {α : Type} :
    ∀ (d : List (String × α)) (k0 : String) (v0 : α) (k : String),
      k ∈ (dictInsert d k0 v0).map Prod.fst → k ∈ d.map Prod.fst ∨ k = k0 := by
  intro d
  induction d with
  | nil =>
      intro k0 v0 k h
      simp [dictInsert] at h
      exact Or.inr h
  | cons e rest ih =>
      obtain ⟨n, x⟩ := e
      intro k0 v0 k h
      simp only [dictInsert] at h
      by_cases h0 : (n == k0) = true
      · rw [if_pos h0] at h
        simp only [List.map_cons, List.mem_cons] at h
        cases h with
        | inl hk => exact Or.inr hk
        | inr hk => exact Or.inl (by simp [hk])
      · rw [if_neg h0] at h
        simp only [List.map_cons, List.mem_cons] at h
        cases h with
        | inl hk => exact Or.inl (by simp [hk])
        | inr hk =>
            cases ih k0 v0 k hk with
            | inl hm => exact Or.inl (by simp [hm])
            | inr hm => exact Or.inr hm

theorem mem_keys_dictExtend {α : Type} :
    ∀ (b a : List (String × α)) (k : String),
      k ∈ (dictExtend a b).map Prod.fst →
      k ∈ a.map Prod.fst ∨ k ∈ b.map Prod.fst := by
  intro b
  induction b with
  | nil =>
      intro a k h
      exact Or.inl h
  | cons e rest ih =>
      obtain ⟨n, x⟩ := e
      intro a k h
      have hstep : dictExtend a ((n, x) :: rest) = dictExtend (dictInsert a n x) rest := by
        simp [dictExtend]
      rw [hstep] at h
      cases ih (dictInsert a n x) k h with
      | inl hm =>
          cases mem_keys_dictInsert a n x k hm with
          | inl hh => exact Or.inl hh
          | inr hh => exact Or.inr (by simp [hh])
      | inr hm => exact Or.inr (by simp [hm])

theorem dictLookup_self {α : Type} :
    ∀ (d : List (String × α)), (d.map Prod.fst).Nodup →
      ∀ e ∈ d, dictLookup d e.1 = some e.2 := by
  intro d
  induction d with
  | nil => intro hnd e h; simp at h
  | cons q rest ih =>
      obtain ⟨n, x⟩ := q
      intro hnd e h
      simp only [List.map_cons, List.nodup_cons] at hnd
      obtain ⟨hnin, hnd2⟩ := hnd
      simp only [List.mem_cons] at h
      cases h with
      | inl hEq =>
          subst hEq
          simp [dictLookup]
      | inr hmem =>
          have hne : (n == e.1) = false := by
            rw [beq_eq_false_iff_ne]
            intro hEq
            apply hnin
            rw [hEq]
            exact List.mem_map_of_mem Prod.fst hmem
          simp [dictLookup, hne, ih hnd2 e hmem]

theorem dictInsert_append_of_not_mem {α : Type} :
    ∀ (d : List (String × α)) (k : String) (v : α),
      ¬ k ∈ d.map Prod.fst → dictInsert d k v = d ++ [(k, v)] := by
  intro d
  induction d with
  | nil => intro k v h; simp [dictInsert]
  | cons e rest ih =>
      obtain ⟨n, x⟩ := e
      intro k v h
      simp only [List.map_cons, List.mem_cons] at h
      push_neg at h
      obtain ⟨hne, hnin⟩ := h
      have hb : (n == k) = false := by
        rw [beq_eq_false_iff_ne]
        exact fun hEq => hne hEq.symm
      simp [dictInsert, hb, ih k v hnin]

theorem dictExtend_append_of_disjoint {α : Type} :
    ∀ (l d : List (String × α)),
      (l.map Prod.fst).Nodup →
      (∀ k ∈ l.map Prod.fst, ¬ k ∈ d.map Prod.fst) →
      dictExtend d l = d ++ l := by
  intro l
  induction l with
  | nil => intro d hnd hdis; simp [dictExtend]
  | cons e rest ih =>
      obtain ⟨n, x⟩ := e
      intro d hnd hdis
      simp only [List.map_cons, List.nodup_cons] at hnd
      obtain ⟨hnin, hnd2⟩ := hnd
      have hstep : dictExtend d ((n, x) :: rest) = dictExtend (dictInsert d n x) rest := by
        simp [dictExtend]
      rw [hstep]
      have hnd3 : dictInsert d n x = d ++ [(n, x)] :=
        dictInsert_append_of_not_mem d n x (hdis n (by simp))
      rw [hnd3]
      rw [ih (d ++ [(n, x)]) hnd2 ?_]
      · simp
      · intro k hk
        simp only [List.map_append, List.mem_append]
        push_neg
        constructor
        · exact hdis k (by simp [hk])
        · simp only [List.map_cons, List.map_nil, List.mem_singleton]
          intro hEq
          apply hnin
          rw [← hEq]
          exact hk

theorem dictOf_eq_self {α : Type} (l : List (String × α))
    (hnd : (l.map Prod.fst).Nodup) : dictOf l = l := by
  have := dictExtend_append_of_disjoint l ([] : List (String × α)) hnd (by simp)
  simpa [dictOf] using this


theorem getArgsFrom_map :
    ∀ (l : List String) (ref c : Nat) (ns : List String) (attrs : List (String × Value)),
      (∀ n ∈ l, ∃ v, dictLookup attrs n = some v) →
      getArgsFrom (.obj ref c ns attrs) l = .ok (l.map (dictLookupD attrs)) := by
  intro l ref c ns attrs
  induction l with
  | nil => intro h; simp [getArgsFrom]
  | cons n rest ih =>
      intro h
      obtain ⟨v, hv⟩ := h n (by simp)
      have hg : getattr (.obj ref c ns attrs) n = .ok v := by simp [getattr, hv]
      simp only [getArgsFrom, hg, ih (fun m hm => h m (by simp [hm])), List.map_cons]
      simp [dictLookupD, hv]

theorem zip_map_self {α β : Type} (f : α → β) :
    ∀ l : List α, l.zip (l.map f) = l.map (fun x => (x, f x)) := by
  intro l
  induction l with
  | nil => rfl
  | cons a rest ih =>
      show (a, f a) :: rest.zip (rest.map f) = (a, f a) :: rest.map (fun x => (x, f x))
      rw [ih]

/-- The per-field validation loop maps each declared field to its validated
value when every field is supplied and its pattern fixes the supplied value
(state unchanged). -/
theorem validateFields_spec :
    ∀ (sub : List (String × Pattern)) (kwargs : List (String × Value))
      (valOf : String × Pattern → Value) (s : St),
      (∀ np ∈ sub, ∃ inp, dictLookup kwargs np.1 = some inp
          ∧ ∀ s2, Pattern.matchp np.2 inp s2 = .ok (some (valOf np), s2)) →
      validateFields sub kwargs s = .ok (sub.map (fun np => (np.1, valOf np)), s) := by
  intro sub
  induction sub with
  | nil => intro kwargs valOf s h; simp [validateFields]
  | cons np rest ih =>
      obtain ⟨n, p⟩ := np
      intro kwargs valOf s h
      obtain ⟨inp, hlk, hval⟩ := h (n, p) (by simp)
      simp only [validateFields, hlk, hval,
        ih kwargs valOf s (fun q hq => h q (List.mem_cons_of_mem _ hq)), List.map_cons]


/-- C8: for a record instance of the immutable/comparable specialization,
`copy(**overrides)` returns a new instance in which the overridden fields
take the new (re-validated) values, every non-overridden constructor
argument is unchanged (its pattern re-accepts the round-tripped value, per
the reconstruction invariant), and the original instance is untouched (the
copy is a fresh object, distinct from the original; values are immutable in
the embedding, mirroring `Concrete`'s immutability). -/
theorem concrete_copy_overrides :
    ∀ (cid : Nat) (sig : List (String × Pattern)) (vref : Nat)
      (attrs : List (String × Value)) (overrides : List (String × Value))
      (expected : String → Value) (s : St),
      attrs.map Prod.fst = sig.map Prod.fst →
      (sig.map Prod.fst).Nodup →
      (overrides.map Prod.fst).Nodup →
      (∀ kv ∈ overrides, kv.1 ∈ sig.map Prod.fst) →
      (∀ np ∈ sig, dictLookup overrides np.1 = none →
          ∀ s2, Pattern.matchp np.2 (dictLookupD attrs np.1) s2
            = .ok (some (dictLookupD attrs np.1), s2)) →
      (∀ np ∈ sig, ∀ w, dictLookup overrides np.1 = some w →
          ∀ s2, Pattern.matchp np.2 w s2 = .ok (some (expected np.1), s2)) →
      (Concrete.copy cid sig (.obj vref cid (sig.map Prod.fst) attrs) overrides s
        = .ok (.obj s.fresh cid (sig.map Prod.fst)
            (sig.map (fun np => (np.1,
              match dictLookup overrides np.1 with
              | some _ => expected np.1
              | none => dictLookupD attrs np.1))),
            { s with fresh := s.fresh + 1 }))
      ∧ (vref ≠ s.fresh →
          Value.obj s.fresh cid (sig.map Prod.fst)
            (sig.map (fun np => (np.1,
              match dictLookup overrides np.1 with
              | some _ => expected np.1
              | none => dictLookupD attrs np.1)))
          ≠ .obj vref cid (sig.map Prod.fst) attrs) := by
  intro cid sig vref attrs overrides expected s hkeys hnd hndov hovk hfix hover
  have hnd_attrs : (attrs.map Prod.fst).Nodup := by rw [hkeys]; exact hnd
  constructor
  · have hargn : getArgnames (.obj vref cid (sig.map Prod.fst) attrs)
        = .ok (sig.map Prod.fst) := rfl
    have hargs : getArgsFrom (.obj vref cid (sig.map Prod.fst) attrs) (sig.map Prod.fst)
        = .ok ((sig.map Prod.fst).map (dictLookupD attrs)) := by
      apply getArgsFrom_map
      intro n hn
      rw [← hkeys] at hn
      exact dictLookup_isSome_of_mem attrs n hn
    have hzip : (sig.map Prod.fst).zip ((sig.map Prod.fst).map (dictLookupD attrs))
        = (sig.map Prod.fst).map (fun n => (n, dictLookupD attrs n)) :=
      zip_map_self (dictLookupD attrs) (sig.map Prod.fst)
    have hattrs_id : (sig.map Prod.fst).map (fun n => (n, dictLookupD attrs n)) = attrs := by
      rw [← hkeys, List.map_map]
      have hfun : ∀ e ∈ attrs, ((fun n => (n, dictLookupD attrs n)) ∘ Prod.fst) e = e := by
        intro e he
        have := dictLookup_self attrs hnd_attrs e he
        simp [Function.comp, dictLookupD, this]
      calc attrs.map ((fun n => (n, dictLookupD attrs n)) ∘ Prod.fst)
          = attrs.map id := List.map_congr_left hfun
        _ = attrs := List.map_id attrs
    have hdictOf : dictOf ((sig.map Prod.fst).map (fun n => (n, dictLookupD attrs n)))
        = attrs := by
      rw [hattrs_id]
      exact dictOf_eq_self attrs hnd_attrs
    have hnokeys : (dictExtend attrs overrides).any
        (fun kv => !(sig.any (fun sp => sp.1 == kv.1))) = false := by
      rw [List.any_eq_false]
      intro kv hkv
      have hk : kv.1 ∈ (dictExtend attrs overrides).map Prod.fst :=
        List.mem_map_of_mem Prod.fst hkv
      have hmem : kv.1 ∈ sig.map Prod.fst := by
        cases mem_keys_dictExtend overrides attrs kv.1 hk with
        | inl h => rw [hkeys] at h; exact h
        | inr h =>
            obtain ⟨kv2, hkv2, hfst⟩ := List.mem_map.mp h
            rw [← hfst]
            exact hovk kv2 hkv2
      obtain ⟨sp, hsp, hspeq⟩ := List.mem_map.mp hmem
      have hany : sig.any (fun sp => sp.1 == kv.1) = true := by
        rw [List.any_eq_true]
        exact ⟨sp, hsp, by simp [hspeq]⟩
      simp [hany]
    have hfields : validateFields sig (dictExtend attrs overrides) s
        = .ok (sig.map (fun np => (np.1,
            match dictLookup overrides np.1 with
            | some _ => expected np.1
            | none => dictLookupD attrs np.1)), s) := by
      apply validateFields_spec
      intro np hnp
      cases hov : dictLookup overrides np.1 with
      | some w =>
          refine ⟨w, ?_, ?_⟩
          · rw [dictLookup_dictExtend overrides attrs np.1 hndov, hov]
          · intro s2
            rw [hover np hnp w hov s2]
      | none =>
          have hmem : np.1 ∈ attrs.map Prod.fst := by
            rw [hkeys]
            exact List.mem_map_of_mem Prod.fst hnp
          obtain ⟨v, hv⟩ := dictLookup_isSome_of_mem attrs np.1 hmem
          refine ⟨v, ?_, ?_⟩
          · rw [dictLookup_dictExtend overrides attrs np.1 hndov, hov, hv]
          · intro s2
            have hvD : dictLookupD attrs np.1 = v := by simp [dictLookupD, hv]
            rw [← hvD]
            exact hfix np hnp hov s2
    simp only [Concrete.copy, hargn, hargs, hzip, Annotable.recreate, validate_nobind,
      dictMerge, hdictOf, hnokeys, Bool.false_eq_true, if_false, hfields]
  · intro hne heq
    rw [Value.obj.injEq] at heq
    exact hne heq.1.symm


/-- Witness for C8: copying a concrete two-field record with `a` overridden
yields a fresh instance with `a = 5`, `b` unchanged, distinct from the
original. -/
theorem concrete_copy_overrides_witness :
    (Concrete.copy 0 [(("a"), Pattern.instanceOf .intC), (("b"), Pattern.instanceOf .intC)]
        (.obj 0 0 (["a", "b"]) [(("a"), .pyint 1), (("b"), .pyint 2)])
        [(("a"), .pyint 5)] ⟨[], 7⟩
      = .ok (.obj 7 0 (["a", "b"]) [(("a"), .pyint 5), (("b"), .pyint 2)], ⟨[], 8⟩))
    ∧ (Value.obj 7 0 (["a", "b"]) [(("a"), .pyint 5), (("b"), .pyint 2)]
        ≠ .obj 0 0 (["a", "b"]) [(("a"), .pyint 1), (("b"), .pyint 2)]) := by
  have h := concrete_copy_overrides 0
    [(("a"), Pattern.instanceOf .intC), (("b"), Pattern.instanceOf .intC)] 0
    [(("a"), .pyint 1), (("b"), .pyint 2)] [(("a"), .pyint 5)]
    (fun _ => .pyint 5) ⟨[], 7⟩ rfl (by decide) (by decide)
    (by intro kv hkv
        fin_cases hkv
        decide)
    (by intro np hnp hnone s2
        fin_cases hnp
        · simp [dictLookup] at hnone
        · simp [Pattern.matchp, dictLookupD, dictLookup, isinst, typeOf])
    (by intro np hnp w hw s2
        fin_cases hnp
        · simp [dictLookup] at hw
          subst hw
          simp [Pattern.matchp, isinst, typeOf]
        · simp [dictLookup] at hw)
  exact ⟨h.1, h.2 (by decide)⟩

end IbisPatterns

